import Mathlib

/-!
Verification of the scheduler core of the taskmanager repository
(`src/backend/app/apis/scheduler/__init__.py`): the conflict checker
`is_conflicting`, the slot finder `get_available_slots`, the alternative-time
suggester `suggest_alternative_times`, and the event-creation handler
`create_event`.

Modelling choices (shallow embedding of the Python code):

* Instants (`datetime` values) are modelled as natural numbers counting
  minutes since an epoch; a calendar date is the day index `t / 1440`
  (`datetime.date()`), and the time of day is `t % 1440`.  Comparisons of
  `datetime` values become comparisons of naturals.
* ISO timestamp strings are modelled by their parse result: `some t` when
  `datetime.fromisoformat` succeeds and yields the instant `t`, `none` when
  it raises `ValueError`.  Likewise the `date` argument of
  `get_available_slots` is modelled by the result of
  `datetime.strptime(date, "%Y-%m-%d")`: `some d` (day index) or `none`.
* `duration_minutes` is modelled as a natural number; the claims under
  study quantify over positive durations, and the boundary case `0`
  (Python `duration_minutes <= 0`) is representable as `0`.
* Raised exceptions become `Except` errors (`SchedErr`).
* The three `while` loops that emit slots are modelled by a fuel-indexed
  recursion `emitSlotsF`; `get_available_slots` runs every loop with the
  fixed fuel `slotFuel`, which is proved sufficient for every loop the
  function performs whenever the duration is positive (see the
  fuel-stability theorem for claim C10).  For `duration_minutes = 0` the
  Python loops never terminate, which shows up in the model as the result
  growing unboundedly with the fuel (claim C3).
* Python's `list.sort(key=...)` is a stable sort by the given key; it is
  modelled by `List.insertionSort`, which is a stable sort for the total
  preorder `a.1 ≤ b.1` and hence extensionally the same function.
-/

namespace Scheduler

/-- Parse result of an ISO datetime string: `some t` = the instant `t`
(minutes since the epoch), `none` = `datetime.fromisoformat` raises. -/
abbrev Timestamp := Option Nat

/-- Minutes in a day; `t / 1440` is `datetime.date()` as a day index. -/
def minutesPerDay : Nat := 1440

/-- `CalendarEvent` pydantic model from the source, with timestamp strings
replaced by their parse results. -/
structure CalendarEvent where
  id : String := ""
  title : String := ""
  description : Option String := none
  start_time : Timestamp := none
  end_time : Timestamp := none
  is_all_day : Bool := false
  status : String := "confirmed"
  source : String := "manual"
  meeting_request_id : Option String := none
deriving Repr, DecidableEq

/-- Errors surfaced by the scheduler endpoints: `invalidDate` is the
HTTP 400 "Invalid date format" of `get_available_slots`, `malformedTimestamp`
the `ValueError` escaping `datetime.fromisoformat`, and `conflict` the
HTTP 400 "Event conflicts with existing events" of `create_event`. -/
inductive SchedErr where
  | invalidDate
  | malformedTimestamp
  | conflict
deriving Repr, DecidableEq

/-- The `for other in other_events` loop of `is_conflicting`, the candidate's
instants already parsed: skip cancelled events, parse the other event's
timestamps, return `true` on the first strict overlap. -/
def conflictLoop (es ee : Nat) : List CalendarEvent → Except SchedErr Bool
  | [] => .ok false
  | o :: rest =>
    if o.status = "cancelled" then
      conflictLoop es ee rest
    else
      match o.start_time, o.end_time with
      | some os, some oe =>
        if es < oe ∧ os < ee then .ok true else conflictLoop es ee rest
      | _, _ => .error .malformedTimestamp

/-- `is_conflicting(event, other_events)`: parse the candidate's timestamps,
then scan `other_events` for a strict interval overlap. -/
def is_conflicting (event : CalendarEvent) (other_events : List CalendarEvent) :
    Except SchedErr Bool :=
  match event.start_time, event.end_time with
  | some es, some ee => conflictLoop es ee other_events
  | _, _ => .error .malformedTimestamp

/-- `create_event(event)` as a transition on the stored event list: read the
store, raise on conflict (store unchanged), otherwise append and save.  The
first component is the stored list after the call. -/
def create_event (event : CalendarEvent) (stored : List CalendarEvent) :
    List CalendarEvent × Except SchedErr CalendarEvent :=
  match is_conflicting event stored with
  | .error e => (stored, .error e)
  | .ok true => (stored, .error .conflict)
  | .ok false => (stored ++ [event], .ok event)

/-- The event-collection loop of `get_available_slots`: parse each stored
event's timestamps (a `ValueError` escapes the endpoint), skip events whose
start or end is not on the target date or whose status is `cancelled`, and
collect the remaining `(start, end)` instant pairs in store order. -/
def collectDayEvents (target : Nat) : List CalendarEvent → Except SchedErr (List (Nat × Nat))
  | [] => .ok []
  | e :: rest =>
    match e.start_time, e.end_time with
    | some es, some ee =>
      if es / minutesPerDay ≠ target ∨ ee / minutesPerDay ≠ target ∨ e.status = "cancelled" then
        collectDayEvents target rest
      else
        match collectDayEvents target rest with
        | .ok l => .ok ((es, ee) :: l)
        | .error er => .error er
    | _, _ => .error .malformedTimestamp

/-- One slot-emission `while` loop:
`while current_time + slot_duration <= bound: emit; current_time += slot_duration`,
indexed by fuel (the Python loop has no built-in bound; `slotFuel` is proved
sufficient when the step is positive). -/
def emitSlotsF : Nat → Nat → Nat → Nat → List (Nat × Nat)
  | 0, _, _, _ => []
  | fuel + 1, cur, bound, step =>
    if cur + step ≤ bound then
      (cur, cur + step) :: emitSlotsF fuel (cur + step) bound step
    else []

/-- The `for i in range(len(occupied_slots) - 1)` loop: between each pair of
consecutive busy intervals, emit slots from the end of the earlier one up to
the start of the later one. -/
def betweenSlotsF (fuel step : Nat) : List (Nat × Nat) → List (Nat × Nat)
  | [] => []
  | [_] => []
  | a :: b :: rest => emitSlotsF fuel a.2 b.1 step ++ betweenSlotsF fuel step (b :: rest)

/-- `occupied_slots[-1]`: the last element of a nonempty list. -/
def lastOf (a : Nat × Nat) : List (Nat × Nat) → Nat × Nat
  | [] => a
  | b :: rest => lastOf b rest

/-- Fuel sufficient for every slot loop on one day: each loop walks from a
point at or after the day's start to a bound before the next midnight, so it
iterates at most 1440 times when the step is positive. -/
def slotFuel : Nat := 1441

/-- The body of `get_available_slots` after the date has parsed to the day
index `target`, with every emission loop run on `fuel`: collect the day's
non-cancelled events, sort them by start time (stable), then emit slots
before the first busy interval, between consecutive busy intervals, and after
the last one; with no busy intervals the whole business-hours window is
walked. -/
def slotsOnDay (fuel target duration_minutes : Nat) (events : List CalendarEvent) :
    Except SchedErr (List (Nat × Nat)) :=
  let day_start := target * minutesPerDay + 9 * 60
  let day_end := target * minutesPerDay + 17 * 60
  match collectDayEvents target events with
  | .error e => .error e
  | .ok day_events =>
    let occupied_slots := day_events.insertionSort (fun a b => a.1 ≤ b.1)
    match occupied_slots with
    | [] => .ok (emitSlotsF fuel day_start day_end duration_minutes)
    | first :: restOcc =>
      let head_slots :=
        if day_start < first.1 then
          emitSlotsF fuel day_start first.1 duration_minutes
        else []
      let mid_slots := betweenSlotsF fuel duration_minutes (first :: restOcc)
      let tail_slots := emitSlotsF fuel (lastOf first restOcc).2 day_end duration_minutes
      .ok (head_slots ++ mid_slots ++ tail_slots)

/-- `get_available_slots(date, duration_minutes)` over a given stored event
list, with every emission loop run on `fuel`: parse the date (HTTP 400 on
failure), then compute the day's free slots. -/
def getAvailableSlotsF (fuel : Nat) (date : Option Nat) (duration_minutes : Nat)
    (events : List CalendarEvent) : Except SchedErr (List (Nat × Nat)) :=
  match date with
  | none => .error .invalidDate
  | some target => slotsOnDay fuel target duration_minutes events

/-- `get_available_slots` with the proved-sufficient fuel. -/
def getAvailableSlots (date : Option Nat) (duration_minutes : Nat)
    (events : List CalendarEvent) : Except SchedErr (List (Nat × Nat)) :=
  getAvailableSlotsF slotFuel date duration_minutes events

/-- `suggest_alternative_times(request)`: call the slot finder and truncate
to `available_slots[:min(3, len(available_slots))]`. -/
def suggest_alternative_times (date : Option Nat) (duration_minutes : Nat)
    (events : List CalendarEvent) : Except SchedErr (List (Nat × Nat)) :=
  match getAvailableSlots date duration_minutes events with
  | .error e => .error e
  | .ok available_slots => .ok (available_slots.take (min 3 available_slots.length))

/-- Helper to build a concrete event for witnesses and counterexamples. -/
def mkEvent (s e : Nat) (st : String) : CalendarEvent :=
  { id := "", start_time := some s, end_time := some e, status := st }

/-- The event filter of `get_available_slots`, as a predicate on a single
event: keep exactly the events whose start and end instants both parse and
fall on the target date and whose status is not `cancelled` (the complement
of the `continue` condition in the collection loop). -/
def keepEvent (target : Nat) (e : CalendarEvent) : Bool :=
  match e.start_time, e.end_time with
  | some es, some ee =>
    decide (es / minutesPerDay = target) && decide (ee / minutesPerDay = target) &&
      !(e.status == "cancelled")
  | _, _ => false

/-!  Theorems.  -/

/-- With step `0`, the emission loop never advances: each unit of fuel emits
one more degenerate slot, so the loop has no fixed point (Python: the
`while` loop never terminates). -/
theorem emitSlotsF_zero_step (fuel cur bound : Nat) (h : cur ≤ bound) :
    emitSlotsF fuel cur bound 0 = List.replicate fuel (cur, cur) := by
  induction fuel with
  | zero => rfl
  | succ n ih =>
    simp only [emitSlotsF, Nat.add_zero, if_pos h, ih, List.replicate]

/-- C3: the source has no `duration <= 0` validation at all: with
`duration_minutes = 0` (and, say, an empty store and a valid date) the slot
walk never terminates.  In the fuel model the result keeps growing with the
fuel — one degenerate slot per unit of fuel — so no `InvalidDuration`
rejection (nor any result at all) is ever produced, contradicting the claim
that such calls are rejected before computation begins. -/
theorem c3_zero_duration_never_rejected (fuel : Nat) :
    getAvailableSlotsF fuel (some 0) 0 [] = .ok (List.replicate fuel (540, 540)) := by
  show Except.ok (emitSlotsF fuel 540 1020 0) = _
  rw [emitSlotsF_zero_step fuel 540 1020 (by norm_num)]

/-- `collectDayEvents` can only fail with `malformedTimestamp`. -/
theorem collectDayEvents_error (target : Nat) (events : List CalendarEvent) (e : SchedErr)
    (h : collectDayEvents target events = .error e) : e = .malformedTimestamp := by
  induction events with
  | nil => simp [collectDayEvents] at h
  | cons a rest ih =>
    rw [collectDayEvents] at h
    cases hs : a.start_time with
    | none => simp [hs] at h; simp [h]
    | some s =>
      cases he : a.end_time with
      | none => simp [hs, he] at h; simp [h]
      | some t =>
        simp only [hs, he] at h
        by_cases hcond : s / minutesPerDay ≠ target ∨ t / minutesPerDay ≠ target ∨ a.status = "cancelled"
        · rw [if_pos hcond] at h; exact ih h
        · rw [if_neg hcond] at h
          cases hrec : collectDayEvents target rest with
          | ok l => rw [hrec] at h; simp at h
          | error er => rw [hrec] at h; simp at h; exact ih (by rw [hrec, h])

/-- C7: a date that fails to parse as `YYYY-MM-DD` is rejected with the
`InvalidDate` error (HTTP 400 "Invalid date format") before anything else is
computed, and a call with a parsable date never fails for that reason. -/
theorem c7_invalid_date (duration_minutes : Nat) (events : List CalendarEvent) :
    getAvailableSlots none duration_minutes events = .error .invalidDate ∧
      ∀ d, getAvailableSlots (some d) duration_minutes events ≠ .error .invalidDate := by
  constructor
  · rfl
  · intro d
    show slotsOnDay slotFuel d duration_minutes events ≠ _
    unfold slotsOnDay
    cases hc : collectDayEvents d events with
    | error e =>
      have he := collectDayEvents_error d events e hc
      simp [hc, he]
    | ok l =>
      cases hs : l.insertionSort (fun a b => a.1 ≤ b.1) with
      | nil => simp [hc, hs]
      | cons first restOcc => simp [hc, hs]


/-- C1: concrete refutation input for the no-overlap claim.  With busy
intervals 10:00–14:00 and 11:00–12:00 nested inside it (both confirmed, both
filtered into the computation) and duration 30, the gap walk resumes after
the *last-by-start* interval (11:00–12:00) and emits the slots 12:00–12:30,
…, 13:30–14:00, each of which lies inside the still-running busy interval
10:00–14:00 (e.g. the slot (720, 750) strictly overlaps (600, 840)). -/
theorem c1_nested_busy_interval_overlap :
    collectDayEvents 0 [mkEvent 600 840 "confirmed", mkEvent 660 720 "confirmed"] =
        .ok [(600, 840), (660, 720)] ∧
    getAvailableSlots (some 0) 30 [mkEvent 600 840 "confirmed", mkEvent 660 720 "confirmed"] =
        .ok [(540, 570), (570, 600), (720, 750), (750, 780), (780, 810), (810, 840),
             (840, 870), (870, 900), (900, 930), (930, 960), (960, 990), (990, 1020)] ∧
    (720, 750) ∈ [(540, 570), (570, 600), (720, 750), (750, 780), (780, 810), (810, 840),
             (840, 870), (870, 900), (900, 930), (930, 960), (960, 990), (990, 1020)] ∧
    720 < 840 ∧ 600 < 750 :=
  ⟨rfl, rfl, by decide, by decide, by decide⟩

/-- C8: `suggest_alternative_times` returns exactly the first
`min(3, n)` elements of the `n` slots the slot finder returns, in the same
order (the returned list is the 3-element initial segment, whose length is
`min 3 n` and which concatenated with the rest reproduces the slot list). -/
theorem c8_suggest_is_take3 (date : Option Nat) (dur : Nat) (events : List CalendarEvent)
    (l : List (Nat × Nat)) (h : getAvailableSlots date dur events = .ok l) :
    suggest_alternative_times date dur events = .ok (l.take 3) ∧
      (l.take 3).length = min 3 l.length ∧ l.take 3 ++ l.drop 3 = l := by
  have h1 : l.take (min 3 l.length) = l.take 3 := by
    rw [← List.take_take, List.take_length]
  refine ⟨?_, ?_, List.take_append_drop 3 l⟩
  · simp [suggest_alternative_times, h, h1]
  · simp [List.length_take]

/-- C8 witness: with no events and duration 30, the slot finder returns 16
slots and the suggester returns exactly the first three. -/
theorem c8_suggest_is_take3_witness :
    suggest_alternative_times (some 0) 30 [] = .ok [(540, 570), (570, 600), (600, 630)] :=
  (c8_suggest_is_take3 (some 0) 30 []
    [(540, 570), (570, 600), (600, 630), (630, 660), (660, 690), (690, 720), (720, 750),
     (750, 780), (780, 810), (810, 840), (840, 870), (870, 900), (900, 930), (930, 960),
     (960, 990), (990, 1020)] rfl).1.trans rfl

/-- When every non-cancelled event in the list has parsable timestamps, the
conflict scan returns a boolean (it cannot fail). -/
theorem conflictLoop_parses (es ee : Nat) (others : List CalendarEvent)
    (hp : ∀ o ∈ others, o.status ≠ "cancelled" →
      ∃ os oe, o.start_time = some os ∧ o.end_time = some oe) :
    ∃ b, conflictLoop es ee others = .ok b := by
  induction others with
  | nil => exact ⟨false, rfl⟩
  | cons o rest ih =>
    rw [conflictLoop]
    by_cases hst : o.status = "cancelled"
    · rw [if_pos hst]
      exact ih fun x hx => hp x (List.mem_cons_of_mem o hx)
    · rw [if_neg hst]
      obtain ⟨os, oe, h1, h2⟩ := hp o (List.mem_cons_self o rest) hst
      simp only [h1, h2]
      by_cases hov : es < oe ∧ os < ee
      · exact ⟨true, by rw [if_pos hov]⟩
      · rw [if_neg hov]
        exact ih fun x hx => hp x (List.mem_cons_of_mem o hx)

/-- Characterisation of the conflict scan: under parsable timestamps it
reports `true` exactly when some non-cancelled event strictly overlaps. -/
theorem conflictLoop_iff (es ee : Nat) (others : List CalendarEvent)
    (hp : ∀ o ∈ others, o.status ≠ "cancelled" →
      ∃ os oe, o.start_time = some os ∧ o.end_time = some oe) :
    conflictLoop es ee others = .ok true ↔
      ∃ o ∈ others, o.status ≠ "cancelled" ∧
        ∃ os oe, o.start_time = some os ∧ o.end_time = some oe ∧ es < oe ∧ ee > os := by
  induction others with
  | nil => simp [conflictLoop]
  | cons o rest ih =>
    have hp' : ∀ x ∈ rest, x.status ≠ "cancelled" →
        ∃ os oe, x.start_time = some os ∧ x.end_time = some oe :=
      fun x hx => hp x (List.mem_cons_of_mem o hx)
    have ihr := ih hp'
    rw [conflictLoop]
    by_cases hst : o.status = "cancelled"
    · rw [if_pos hst, ihr]
      constructor
      · rintro ⟨x, hx, h⟩
        exact ⟨x, List.mem_cons_of_mem o hx, h⟩
      · rintro ⟨x, hx, hxs, hrest⟩
        rcases List.mem_cons.mp hx with heq | hmem
        · exact absurd (heq ▸ hst) hxs
        · exact ⟨x, hmem, hxs, hrest⟩
    · rw [if_neg hst]
      obtain ⟨os, oe, h1, h2⟩ := hp o (List.mem_cons_self o rest) hst
      simp only [h1, h2]
      by_cases hov : es < oe ∧ os < ee
      · rw [if_pos hov]
        exact iff_of_true rfl
          ⟨o, List.mem_cons_self o rest, hst, os, oe, h1, h2, hov.1, hov.2⟩
      · rw [if_neg hov, ihr]
        constructor
        · rintro ⟨x, hx, h⟩
          exact ⟨x, List.mem_cons_of_mem o hx, h⟩
        · rintro ⟨x, hx, hxs, os1, oe1, hx1, hx2, hlt1, hlt2⟩
          rcases List.mem_cons.mp hx with heq | hmem
          · subst heq
            rw [h1] at hx1
            rw [h2] at hx2
            obtain rfl : os = os1 := Option.some_injective _ hx1
            obtain rfl : oe = oe1 := Option.some_injective _ hx2
            exact absurd ⟨hlt1, hlt2⟩ hov
          · exact ⟨x, hmem, hxs, os1, oe1, hx1, hx2, hlt1, hlt2⟩

/-- C4: for a candidate with parsable timestamps (and parsable non-cancelled
others), `is_conflicting` returns `true` iff some non-cancelled other event
satisfies `candidate.start < other.end` and `candidate.end > other.start`;
strict inequalities, so touching endpoints are not conflicts. -/
theorem c4_is_conflicting_iff (event : CalendarEvent) (others : List CalendarEvent)
    (es ee : Nat) (hes : event.start_time = some es) (hee : event.end_time = some ee)
    (hp : ∀ o ∈ others, o.status ≠ "cancelled" →
      ∃ os oe, o.start_time = some os ∧ o.end_time = some oe) :
    is_conflicting event others = .ok true ↔
      ∃ o ∈ others, o.status ≠ "cancelled" ∧
        ∃ os oe, o.start_time = some os ∧ o.end_time = some oe ∧ es < oe ∧ ee > os := by
  rw [is_conflicting]
  simp only [hes, hee]
  exact conflictLoop_iff es ee others hp

/-- C4 witness: a candidate 09:00–09:30 against a confirmed event
09:30–10:00 whose start touches the candidate's end: the characterisation
applies and the call indeed returns `false` (touching is not a conflict). -/
theorem c4_is_conflicting_iff_witness :
    is_conflicting (mkEvent 540 570 "confirmed") [mkEvent 570 600 "confirmed"] = .ok false ∧
      (is_conflicting (mkEvent 540 570 "confirmed") [mkEvent 570 600 "confirmed"] = .ok true ↔
        ∃ o ∈ [mkEvent 570 600 "confirmed"], o.status ≠ "cancelled" ∧
          ∃ os oe, o.start_time = some os ∧ o.end_time = some oe ∧ 540 < oe ∧ 570 > os) :=
  ⟨rfl,
   c4_is_conflicting_iff (mkEvent 540 570 "confirmed") [mkEvent 570 600 "confirmed"]
     540 570 rfl rfl
     (by
       intro o ho hst
       rw [List.mem_singleton] at ho
       exact ⟨570, 600, by rw [ho]; rfl, by rw [ho]; rfl⟩)⟩

/-- C9: `create_event` is atomic.  With parsable timestamps: if the new event
strictly overlaps some non-cancelled stored event, the call fails with the
conflict error and the stored list is returned unchanged; otherwise the call
succeeds and the new store is exactly the old list with the event appended at
the end (all previous events unchanged, in their original order). -/
theorem c9_create_event_atomic (event : CalendarEvent) (stored : List CalendarEvent)
    (es ee : Nat) (hes : event.start_time = some es) (hee : event.end_time = some ee)
    (hp : ∀ o ∈ stored, o.status ≠ "cancelled" →
      ∃ os oe, o.start_time = some os ∧ o.end_time = some oe) :
    ((∃ o ∈ stored, o.status ≠ "cancelled" ∧
        ∃ os oe, o.start_time = some os ∧ o.end_time = some oe ∧ es < oe ∧ ee > os) →
      create_event event stored = (stored, .error .conflict)) ∧
    (¬(∃ o ∈ stored, o.status ≠ "cancelled" ∧
        ∃ os oe, o.start_time = some os ∧ o.end_time = some oe ∧ es < oe ∧ ee > os) →
      create_event event stored = (stored ++ [event], .ok event)) := by
  have hconf : is_conflicting event stored = conflictLoop es ee stored := by
    rw [is_conflicting]; simp only [hes, hee]
  have hiff := conflictLoop_iff es ee stored hp
  obtain ⟨b, hb⟩ := conflictLoop_parses es ee stored hp
  constructor
  · intro hex
    have htrue : conflictLoop es ee stored = .ok true := hiff.mpr hex
    rw [create_event, hconf, htrue]
  · intro hnex
    have hne : conflictLoop es ee stored ≠ .ok true := fun h => hnex (hiff.mp h)
    have hfalse : conflictLoop es ee stored = .ok false := by
      cases b with
      | true => exact absurd hb hne
      | false => exact hb
    rw [create_event, hconf, hfalse]

/-- C9 witness: creating a 10:00–11:00 event over a store holding a confirmed
10:30–11:30 event fails with the conflict error and leaves the store
unchanged. -/
theorem c9_create_event_atomic_witness :
    create_event (mkEvent 600 660 "confirmed") [mkEvent 630 690 "confirmed"] =
      ([mkEvent 630 690 "confirmed"], .error .conflict) :=
  (c9_create_event_atomic (mkEvent 600 660 "confirmed") [mkEvent 630 690 "confirmed"]
    600 660 rfl rfl
    (by
      intro o ho hst
      rw [List.mem_singleton] at ho
      exact ⟨630, 690, by rw [ho]; rfl, by rw [ho]; rfl⟩)).1
    ⟨mkEvent 630 690 "confirmed", List.mem_singleton.mpr rfl, by decide,
     630, 690, rfl, rfl, by decide, by decide⟩

/-- The collection loop ignores exactly the events rejected by `keepEvent`:
when every stored event has parsable timestamps, collecting over the raw list
and over the `keepEvent`-filtered list yields the same busy intervals. -/
theorem collectDayEvents_filter (target : Nat) (events : List CalendarEvent)
    (hp : ∀ e ∈ events, ∃ s t, e.start_time = some s ∧ e.end_time = some t) :
    collectDayEvents target events =
      collectDayEvents target (events.filter (keepEvent target)) := by
  induction events with
  | nil => rfl
  | cons a rest ih =>
    have hp' : ∀ e ∈ rest, ∃ s t, e.start_time = some s ∧ e.end_time = some t :=
      fun e he => hp e (List.mem_cons_of_mem a he)
    have ihr := ih hp'
    obtain ⟨s, t, hs, ht⟩ := hp a (List.mem_cons_self a rest)
    by_cases hcond : s / minutesPerDay ≠ target ∨ t / minutesPerDay ≠ target ∨
        a.status = "cancelled"
    · have hkeep : keepEvent target a = false := by
        rw [keepEvent]
        simp only [hs, ht]
        rcases hcond with h | h | h
        · simp [h]
        · simp [h]
        · simp [h]
      rw [List.filter_cons_of_neg (by simp [hkeep])]
      rw [collectDayEvents]
      simp only [hs, ht]
      rw [if_pos hcond]
      exact ihr
    · have hkeep : keepEvent target a = true := by
        push_neg at hcond
        rw [keepEvent]
        simp only [hs, ht]
        simp [hcond.1, hcond.2.1, hcond.2.2]
      rw [List.filter_cons_of_pos (by simp [hkeep])]
      rw [collectDayEvents, collectDayEvents]
      simp only [hs, ht]
      rw [if_neg hcond, if_neg hcond, ihr]

/-- C5: the slot finder considers exactly the events whose start and end both
fall on the target date and whose status is not `cancelled`: with parsable
timestamps, running it on the raw store and on the store filtered by that
predicate gives identical results, so excluded events (cancelled, spanning
midnight, or on another date) have no effect whatsoever. -/
theorem c5_considers_exactly_filtered (d dur : Nat) (events : List CalendarEvent)
    (hp : ∀ e ∈ events, ∃ s t, e.start_time = some s ∧ e.end_time = some t) :
    getAvailableSlots (some d) dur events =
      getAvailableSlots (some d) dur (events.filter (keepEvent d)) := by
  show slotsOnDay slotFuel d dur events = slotsOnDay slotFuel d dur (events.filter (keepEvent d))
  unfold slotsOnDay
  rw [collectDayEvents_filter d events hp]

/-- C5 witness: a lone cancelled 10:00–11:00 event is filtered out, so the
slot finder behaves exactly as with no events at all — 16 slots. -/
theorem c5_considers_exactly_filtered_witness :
    getAvailableSlots (some 0) 30 [mkEvent 600 660 "cancelled"] =
        getAvailableSlots (some 0) 30 [] ∧
      getAvailableSlots (some 0) 30 [] =
        .ok [(540, 570), (570, 600), (600, 630), (630, 660), (660, 690), (690, 720),
             (720, 750), (750, 780), (780, 810), (810, 840), (840, 870), (870, 900),
             (900, 930), (930, 960), (960, 990), (990, 1020)] := by
  constructor
  · have h := c5_considers_exactly_filtered 0 30 [mkEvent 600 660 "cancelled"]
      (by
        intro e he
        rw [List.mem_singleton] at he
        exact ⟨600, 660, by rw [he]; rfl, by rw [he]; rfl⟩)
    have hf : ([mkEvent 600 660 "cancelled"]).filter (keepEvent 0) = [] := rfl
    rw [hf] at h
    exact h
  · rfl

/-- C6 counterexample: a cancelled event whose timestamps cannot be parsed is
silently skipped — `is_conflicting` returns the boolean `false` instead of
failing with `MalformedTimestamp`, because the status check runs before the
timestamps of the other event are ever parsed. -/
theorem c6_cancelled_malformed_skipped :
    is_conflicting (mkEvent 600 660 "confirmed")
        [{ id := "bad", start_time := none, end_time := none, status := "cancelled" }] =
      .ok false ∧
    ({ id := "bad", start_time := none, end_time := none,
        status := "cancelled" } : CalendarEvent).start_time = none :=
  ⟨rfl, rfl⟩

/-- C6 (amended): `is_conflicting` fails with `MalformedTimestamp` whenever a
timestamp it actually parses is unparsable: always for the candidate's own
timestamps, and for a non-cancelled other event whenever the scan reaches it,
i.e. whenever no earlier non-cancelled event already conflicts (cancelled
events are skipped without parsing, and the scan stops at the first
conflict). -/
theorem c6_malformed_examined_fails :
    (∀ (event : CalendarEvent) (others : List CalendarEvent),
      (event.start_time = none ∨ event.end_time = none) →
      is_conflicting event others = .error .malformedTimestamp) ∧
    (∀ (event bad : CalendarEvent) (pre post : List CalendarEvent) (es ee : Nat),
      event.start_time = some es → event.end_time = some ee →
      bad.status ≠ "cancelled" →
      (bad.start_time = none ∨ bad.end_time = none) →
      (∀ o ∈ pre, o.status ≠ "cancelled" →
        ∃ os oe, o.start_time = some os ∧ o.end_time = some oe ∧ ¬(es < oe ∧ os < ee)) →
      is_conflicting event (pre ++ bad :: post) = .error .malformedTimestamp) := by
  constructor
  · intro event others hbad
    rw [is_conflicting]
    rcases hbad with h | h
    · rw [h]
    · rw [h]
      cases event.start_time <;> rfl
  · intro event bad pre post es ee hes hee hbs hbad hpre
    rw [is_conflicting]
    simp only [hes, hee]
    induction pre with
    | nil =>
      rw [List.nil_append, conflictLoop, if_neg hbs]
      rcases hbad with h | h
      · rw [h]
      · rw [h]
        cases bad.start_time <;> rfl
    | cons o rest ih =>
      rw [List.cons_append, conflictLoop]
      by_cases hst : o.status = "cancelled"
      · rw [if_pos hst]
        exact ih fun x hx => hpre x (List.mem_cons_of_mem o hx)
      · rw [if_neg hst]
        obtain ⟨os, oe, h1, h2, hno⟩ := hpre o (List.mem_cons_self o rest) hst
        simp only [h1, h2]
        rw [if_neg hno]
        exact ih fun x hx => hpre x (List.mem_cons_of_mem o hx)

/-- C6 witness: a candidate 10:00–11:00 scanned against a non-conflicting
confirmed event 08:00–09:00 followed by a non-cancelled event with an
unparsable start: the scan reaches the malformed event and the whole call
fails with `MalformedTimestamp`. -/
theorem c6_malformed_examined_fails_witness :
    is_conflicting (mkEvent 600 660 "confirmed")
        ([mkEvent 480 540 "confirmed"] ++
          [{ id := "bad", start_time := none, end_time := some 700,
             status := "confirmed" }]) =
      .error .malformedTimestamp :=
  c6_malformed_examined_fails.2 (mkEvent 600 660 "confirmed")
    { id := "bad", start_time := none, end_time := some 700, status := "confirmed" }
    [mkEvent 480 540 "confirmed"] [] 600 660 rfl rfl (by decide) (Or.inl rfl)
    (by
      intro o ho hst
      rw [List.mem_singleton] at ho
      exact ⟨480, 540, by rw [ho]; rfl, by rw [ho]; rfl, by decide⟩)

/-- Every slot emitted by one emission loop is exactly `step` long, starts no
earlier than the loop's starting time, and ends no later than the loop's
bound. -/
theorem emitSlotsF_mem (fuel : Nat) : ∀ (cur bound step : Nat) (s : Nat × Nat),
    s ∈ emitSlotsF fuel cur bound step →
    s.2 = s.1 + step ∧ cur ≤ s.1 ∧ s.2 ≤ bound := by
  induction fuel with
  | zero => intro cur bound step s hs; simp [emitSlotsF] at hs
  | succ n ih =>
    intro cur bound step s hs
    rw [emitSlotsF] at hs
    by_cases hcond : cur + step ≤ bound
    · rw [if_pos hcond] at hs
      rcases List.mem_cons.mp hs with heq | hmem
      · subst heq
        exact ⟨rfl, Nat.le_refl cur, hcond⟩
      · obtain ⟨h1, h2, h3⟩ := ih (cur + step) bound step s hmem
        exact ⟨h1, Nat.le_trans (Nat.le_add_right cur step) h2, h3⟩
    · rw [if_neg hcond] at hs
      simp at hs

/-- Every slot of the between-events walk comes from the loop between the end
of some listed busy interval and the start of some listed busy interval. -/
theorem betweenSlotsF_mem (fuel step : Nat) : ∀ (l : List (Nat × Nat)) (s : Nat × Nat),
    s ∈ betweenSlotsF fuel step l →
    ∃ a ∈ l, ∃ b ∈ l, s ∈ emitSlotsF fuel a.2 b.1 step := by
  intro l
  induction l with
  | nil => intro s hs; simp [betweenSlotsF] at hs
  | cons a rest ih =>
    intro s hs
    cases rest with
    | nil => simp [betweenSlotsF] at hs
    | cons b rest2 =>
      rw [betweenSlotsF] at hs
      rcases List.mem_append.mp hs with hmem | hmem
      · exact ⟨a, List.mem_cons_self a _, b, List.mem_cons_of_mem a (List.mem_cons_self b _), hmem⟩
      · obtain ⟨x, hx, y, hy, hxy⟩ := ih s hmem
        exact ⟨x, List.mem_cons_of_mem a hx, y, List.mem_cons_of_mem a hy, hxy⟩

/-- `occupied_slots[-1]` is an element of the occupied list. -/
theorem lastOf_mem : ∀ (l : List (Nat × Nat)) (a : Nat × Nat), lastOf a l ∈ a :: l := by
  intro l
  induction l with
  | nil => intro a; simp [lastOf]
  | cons b rest ih =>
    intro a
    rw [lastOf]
    exact List.mem_cons_of_mem a (ih b)

/-- C2 counterexample: with a single confirmed event 08:00–08:30 — on the
target date but before business hours — and duration 30, the walk resumes at
the event's end and the first returned slot is 08:30–09:00, whose start 510
lies strictly before `business_start` (09:00 = 540): the containment part of
the claim fails exactly when a filtered-in event lies outside the
business-hours window. -/
theorem c2_slot_outside_business_hours :
    getAvailableSlots (some 0) 30 [mkEvent 480 510 "confirmed"] =
        .ok [(510, 540), (540, 570), (570, 600), (600, 630), (630, 660), (660, 690),
             (690, 720), (720, 750), (750, 780), (780, 810), (810, 840), (840, 870),
             (870, 900), (900, 930), (930, 960), (960, 990), (990, 1020)] ∧
    (510, 540) ∈ [(510, 540), (540, 570), (570, 600), (600, 630), (630, 660), (660, 690),
             (690, 720), (720, 750), (750, 780), (780, 810), (810, 840), (840, 870),
             (870, 900), (900, 930), (930, 960), (960, 990), (990, 1020)] ∧
    510 < 0 * minutesPerDay + 9 * 60 :=
  ⟨rfl, by decide, by decide⟩

/-- C2 (amended): every returned slot is exactly `duration` long, for all
inputs; and whenever every busy interval filtered into the computation lies
inside the business-hours window `[09:00, 17:00]` of the target day, every
returned slot lies inside that window as well.  (The unconditional
containment of the original claim is refuted by
the slot finder's behaviour on events outside the window.) -/
theorem c2_duration_exact_and_window (d dur : Nat) (events : List CalendarEvent)
    (de l : List (Nat × Nat))
    (hc : collectDayEvents d events = .ok de)
    (hok : getAvailableSlots (some d) dur events = .ok l) :
    (∀ s ∈ l, s.2 = s.1 + dur) ∧
    ((∀ p ∈ de, d * minutesPerDay + 9 * 60 ≤ p.1 ∧ p.1 ≤ p.2 ∧
        p.2 ≤ d * minutesPerDay + 17 * 60) →
      ∀ s ∈ l, d * minutesPerDay + 9 * 60 ≤ s.1 ∧ s.2 ≤ d * minutesPerDay + 17 * 60) := by
  have hok' : slotsOnDay slotFuel d dur events = .ok l := hok
  rw [slotsOnDay] at hok'
  simp only [hc] at hok'
  cases hsort : de.insertionSort (fun a b => a.1 ≤ b.1) with
  | nil =>
    rw [hsort] at hok'
    simp only [Except.ok.injEq] at hok'
    subst hok'
    constructor
    · intro s hs
      exact (emitSlotsF_mem slotFuel _ _ _ s hs).1
    · intro _ s hs
      obtain ⟨_, h2, h3⟩ := emitSlotsF_mem slotFuel _ _ _ s hs
      exact ⟨h2, h3⟩
  | cons first restOcc =>
    rw [hsort] at hok'
    simp only [Except.ok.injEq] at hok'
    subst hok'
    have hmem_de : ∀ p, p ∈ first :: restOcc → p ∈ de := by
      intro p hp
      rw [← hsort] at hp
      exact (List.mem_insertionSort (fun a b => a.1 ≤ b.1)).mp hp
    constructor
    · intro s hs
      rcases List.mem_append.mp hs with hs1 | hs2
      · rcases List.mem_append.mp hs1 with hh | hm
        · by_cases hcond : d * minutesPerDay + 9 * 60 < first.1
          · rw [if_pos hcond] at hh
            exact (emitSlotsF_mem slotFuel _ _ _ s hh).1
          · rw [if_neg hcond] at hh
            simp at hh
        · obtain ⟨a, _, b, _, hab⟩ := betweenSlotsF_mem slotFuel dur _ s hm
          exact (emitSlotsF_mem slotFuel _ _ _ s hab).1
      · exact (emitSlotsF_mem slotFuel _ _ _ s hs2).1
    · intro hwin s hs
      have hwin' : ∀ p ∈ first :: restOcc,
          d * minutesPerDay + 9 * 60 ≤ p.1 ∧ p.1 ≤ p.2 ∧
            p.2 ≤ d * minutesPerDay + 17 * 60 :=
        fun p hp => hwin p (hmem_de p hp)
      rcases List.mem_append.mp hs with hs1 | hs2
      · rcases List.mem_append.mp hs1 with hh | hm
        · by_cases hcond : d * minutesPerDay + 9 * 60 < first.1
          · rw [if_pos hcond] at hh
            obtain ⟨_, h2, h3⟩ := emitSlotsF_mem slotFuel _ _ _ s hh
            obtain ⟨hf1, hf2, hf3⟩ := hwin' first (List.mem_cons_self first restOcc)
            exact ⟨h2, Nat.le_trans h3 (Nat.le_trans hf2 hf3)⟩
          · rw [if_neg hcond] at hh
            simp at hh
        · obtain ⟨a, ha, b, hb, hab⟩ := betweenSlotsF_mem slotFuel dur _ s hm
          obtain ⟨_, h2, h3⟩ := emitSlotsF_mem slotFuel _ _ _ s hab
          obtain ⟨ha1, ha2, ha3⟩ := hwin' a ha
          obtain ⟨hb1, hb2, hb3⟩ := hwin' b hb
          exact ⟨Nat.le_trans (Nat.le_trans ha1 ha2) h2,
            Nat.le_trans h3 (Nat.le_trans hb2 hb3)⟩
      · obtain ⟨_, h2, h3⟩ := emitSlotsF_mem slotFuel _ _ _ s hs2
        have hlast := hwin' (lastOf first restOcc) (lastOf_mem restOcc first)
        exact ⟨Nat.le_trans (Nat.le_trans hlast.1 hlast.2.1) h2, h3⟩

/-- C2 witness: one confirmed event 10:00–11:00 inside business hours,
duration 30: the 14 returned slots are each exactly 30 minutes long and lie
inside the business-hours window [540, 1020]. -/
theorem c2_duration_exact_and_window_witness :
    (∀ s ∈ [(540, 570), (570, 600), (660, 690), (690, 720), (720, 750), (750, 780),
        (780, 810), (810, 840), (840, 870), (870, 900), (900, 930), (930, 960),
        (960, 990), (990, 1020)], s.2 = s.1 + 30) ∧
    (∀ s ∈ [(540, 570), (570, 600), (660, 690), (690, 720), (720, 750), (750, 780),
        (780, 810), (810, 840), (840, 870), (870, 900), (900, 930), (930, 960),
        (960, 990), (990, 1020)], 540 ≤ s.1 ∧ s.2 ≤ 1020) := by
  have h := c2_duration_exact_and_window 0 30 [mkEvent 600 660 "confirmed"]
    [(600, 660)]
    [(540, 570), (570, 600), (660, 690), (690, 720), (720, 750), (750, 780),
     (780, 810), (810, 840), (840, 870), (870, 900), (900, 930), (930, 960),
     (960, 990), (990, 1020)] rfl rfl
  exact ⟨h.1, h.2 (by decide)⟩

/-- Fuel stability for one emission loop: once the fuel covers the number of
steps needed to cross the bound, adding more fuel does not change the
result — i.e. the `while` loop terminates when the step is positive. -/
theorem emitSlotsF_stable : ∀ (fuel cur bound step f2 : Nat), 0 < step →
    bound < cur + fuel * step → fuel ≤ f2 →
    emitSlotsF f2 cur bound step = emitSlotsF fuel cur bound step := by
  intro fuel
  induction fuel with
  | zero =>
    intro cur bound step f2 hstep hb _
    rw [Nat.zero_mul, Nat.add_zero] at hb
    cases f2 with
    | zero => rfl
    | succ m =>
      rw [emitSlotsF, emitSlotsF]
      rw [if_neg (by omega)]
  | succ n ih =>
    intro cur bound step f2 hstep hb hle
    cases f2 with
    | zero => omega
    | succ m =>
      rw [emitSlotsF, emitSlotsF]
      by_cases hcond : cur + step ≤ bound
      · rw [if_pos hcond, if_pos hcond]
        have hb' : bound < (cur + step) + n * step := by
          have : cur + (n + 1) * step = (cur + step) + n * step := by ring
          omega
        rw [ih (cur + step) bound step m hstep hb' (Nat.succ_le_succ_iff.mp hle)]
      · rw [if_neg hcond, if_neg hcond]

/-- A day-bounded emission loop is stable at `slotFuel`: if it starts at or
after the day's midnight and its bound lies before the next midnight, then
`slotFuel` iterations always suffice for a positive step. -/
theorem emitSlotsF_day_stable (d cur bound step fuel : Nat) (hstep : 0 < step)
    (hcur : d * minutesPerDay ≤ cur) (hbound : bound < d * minutesPerDay + minutesPerDay)
    (hfuel : slotFuel ≤ fuel) :
    emitSlotsF fuel cur bound step = emitSlotsF slotFuel cur bound step := by
  have hX : slotFuel ≤ slotFuel * step := Nat.le_mul_of_pos_right slotFuel hstep
  have hb : bound < cur + slotFuel * step := by
    have h1 : (minutesPerDay : Nat) = 1440 := rfl
    have h2 : (slotFuel : Nat) = 1441 := rfl
    omega
  exact emitSlotsF_stable slotFuel cur bound step fuel hstep hb hfuel

/-- The between-events walk is stable at `slotFuel` when every listed busy
interval ends at or after the day's midnight and starts before the next
midnight. -/
theorem betweenSlotsF_day_stable (d step fuel : Nat) (hstep : 0 < step)
    (hfuel : slotFuel ≤ fuel) : ∀ (l : List (Nat × Nat)),
    (∀ p ∈ l, d * minutesPerDay ≤ p.2 ∧ p.1 < d * minutesPerDay + minutesPerDay) →
    betweenSlotsF fuel step l = betweenSlotsF slotFuel step l := by
  intro l
  induction l with
  | nil => intro _; rfl
  | cons a rest ih =>
    intro hp
    cases rest with
    | nil => rfl
    | cons b rest2 =>
      rw [betweenSlotsF, betweenSlotsF]
      have ha := hp a (List.mem_cons_self a _)
      have hb := hp b (List.mem_cons_of_mem a (List.mem_cons_self b _))
      rw [emitSlotsF_day_stable d a.2 b.1 step fuel hstep ha.1 hb.2 hfuel]
      rw [ih fun p hpm => hp p (List.mem_cons_of_mem a hpm)]

/-- Every busy interval collected for the target day has both endpoints on
that day. -/
theorem collectDayEvents_mem (target : Nat) : ∀ (events : List CalendarEvent)
    (de : List (Nat × Nat)), collectDayEvents target events = .ok de →
    ∀ p ∈ de, p.1 / minutesPerDay = target ∧ p.2 / minutesPerDay = target := by
  intro events
  induction events with
  | nil =>
    intro de h p hp
    simp only [collectDayEvents, Except.ok.injEq] at h
    subst h
    simp at hp
  | cons a rest ih =>
    intro de h p hp
    rw [collectDayEvents] at h
    cases hs : a.start_time with
    | none => rw [hs] at h; cases ha : a.end_time <;> rw [ha] at h <;> simp at h
    | some s =>
      cases ht : a.end_time with
      | none => rw [hs, ht] at h; simp at h
      | some t =>
        simp only [hs, ht] at h
        by_cases hcond : s / minutesPerDay ≠ target ∨ t / minutesPerDay ≠ target ∨
            a.status = "cancelled"
        · rw [if_pos hcond] at h
          exact ih de h p hp
        · rw [if_neg hcond] at h
          push_neg at hcond
          cases hrec : collectDayEvents target rest with
          | error er => rw [hrec] at h; simp at h
          | ok l =>
            rw [hrec] at h
            simp only [Except.ok.injEq] at h
            subst h
            rcases List.mem_cons.mp hp with heq | hmem
            · subst heq
              exact ⟨hcond.1, hcond.2.1⟩
            · exact ih l hrec p hmem

/-- An instant on day `d` lies between that day's midnight (inclusive) and
the next midnight (exclusive). -/
theorem day_bounds (d p : Nat) (h : p / minutesPerDay = d) :
    d * minutesPerDay ≤ p ∧ p < d * minutesPerDay + minutesPerDay := by
  unfold minutesPerDay at h ⊢
  omega

/-- C10: the slot-generation walk of `get_available_slots` terminates for
every positive duration: each loop advances by the positive slot duration
toward a bound on the target day, so `slotFuel` iterations per loop always
suffice, and running the function with any larger fuel yields the very same
result as `getAvailableSlots` (the fixed-fuel function) — the computation has
reached its fixed point. -/
theorem c10_slot_walk_terminates (fuel : Nat) (date : Option Nat) (dur : Nat)
    (events : List CalendarEvent) (hdur : 0 < dur) (hfuel : slotFuel ≤ fuel) :
    getAvailableSlotsF fuel date dur events = getAvailableSlots date dur events := by
  cases date with
  | none => rfl
  | some d =>
    show slotsOnDay fuel d dur events = slotsOnDay slotFuel d dur events
    rw [slotsOnDay, slotsOnDay]
    cases hc : collectDayEvents d events with
    | error e => simp only [hc]
    | ok de =>
      simp only [hc]
      have hmemde := collectDayEvents_mem d events de hc
      cases hsort : de.insertionSort (fun a b => a.1 ≤ b.1) with
      | nil =>
        simp only [hsort]
        rw [emitSlotsF_day_stable d _ _ dur fuel hdur (Nat.le_add_right _ _)
          (by unfold minutesPerDay; omega) hfuel]
      | cons first restOcc =>
        simp only [hsort]
        have hmem_sorted : ∀ p ∈ first :: restOcc,
            p.1 / minutesPerDay = d ∧ p.2 / minutesPerDay = d := by
          intro p hp
          rw [← hsort] at hp
          exact hmemde p ((List.mem_insertionSort (fun a b => a.1 ≤ b.1)).mp hp)
        have hfirst := hmem_sorted first (List.mem_cons_self first restOcc)
        have hlast := hmem_sorted (lastOf first restOcc) (lastOf_mem restOcc first)
        have hhead : (if d * minutesPerDay + 9 * 60 < first.1 then
              emitSlotsF fuel (d * minutesPerDay + 9 * 60) first.1 dur
            else []) =
            (if d * minutesPerDay + 9 * 60 < first.1 then
              emitSlotsF slotFuel (d * minutesPerDay + 9 * 60) first.1 dur
            else []) := by
          by_cases hcond : d * minutesPerDay + 9 * 60 < first.1
          · rw [if_pos hcond, if_pos hcond]
            exact emitSlotsF_day_stable d _ _ dur fuel hdur (Nat.le_add_right _ _)
              (day_bounds d first.1 hfirst.1).2 hfuel
          · rw [if_neg hcond, if_neg hcond]
        have hmid : betweenSlotsF fuel dur (first :: restOcc) =
            betweenSlotsF slotFuel dur (first :: restOcc) :=
          betweenSlotsF_day_stable d dur fuel hdur hfuel (first :: restOcc)
            (fun p hp => ⟨(day_bounds d p.2 (hmem_sorted p hp).2).1,
              (day_bounds d p.1 (hmem_sorted p hp).1).2⟩)
        have htail : emitSlotsF fuel (lastOf first restOcc).2
              (d * minutesPerDay + 17 * 60) dur =
            emitSlotsF slotFuel (lastOf first restOcc).2
              (d * minutesPerDay + 17 * 60) dur :=
          emitSlotsF_day_stable d _ _ dur fuel hdur
            (day_bounds d (lastOf first restOcc).2 hlast.2).1
            (by unfold minutesPerDay; omega) hfuel
        rw [hhead, hmid, htail]

/-- C10 witness: with duration 30 and no events, fuel 2000 and the canonical
fuel `slotFuel` produce the same slot list. -/
theorem c10_slot_walk_terminates_witness :
    getAvailableSlotsF 2000 (some 0) 30 [] = getAvailableSlots (some 0) 30 [] :=
  c10_slot_walk_terminates 2000 (some 0) 30 [] (by decide) (by decide)
end Scheduler
